import Mathlib

/-!
Verification of the SAT-instance / DIMACS codec library.

The definitions below are a shallow embedding of the Rust sources:
  * `src/src/lib.rs`        — `Instance`, `Literal`, `Assignment` and their methods,
  * `src/src/solver/dimacs.rs` — `Dimacs::write_instance` and `Dimacs::read_solution`.

Byte streams are modelled as `List Char` (the streams are ASCII).  A Rust
panic (a failed `assert!`/`unwrap`/out-of-bounds index) in the decoder is
modelled as `Except.error`; `Assignment::get`'s possible index panic is
modelled by an `Option` result.
-/

namespace SatLib

/-- Mirrors `Literal { var: usize, negated: bool }` from `src/src/lib.rs`. -/
structure Literal where
  var : Nat
  negated : Bool
deriving DecidableEq

/-- Mirrors `Instance { num_vars: usize, cnf_clauses: Vec<Vec<Literal>> }`. -/
structure Instance where
  num_vars : Nat
  cnf_clauses : List (List Literal)
deriving DecidableEq

/-- Mirrors `Assignment { assignment: Vec<Literal> }`. -/
structure Assignment where
  assignment : List Literal
deriving DecidableEq

/-- `Instance::new`. -/
def Instance.new : Instance :=
  { num_vars := 0, cnf_clauses := [] }

/-- `Instance::fresh_var`; the mutation of `self` is made explicit by
returning the updated instance next to the fresh non-negated literal. -/
def fresh_var (i : Instance) : Instance × Literal :=
  ({ i with num_vars := i.num_vars + 1 }, { var := i.num_vars, negated := false })

/-- `Instance::assert_any`: pushes the collected literals as one clause. -/
def assert_any (i : Instance) (lits : List Literal) : Instance :=
  { i with cnf_clauses := i.cnf_clauses ++ [lits] }

/-- `impl ops::Not for Literal`: flip the `negated` flag, keep the variable. -/
def Literal.not (l : Literal) : Literal :=
  { l with negated := !l.negated }

/-- `Assignment::get`: `lit.negated ^ (!self.assignment[lit.var].negated)`.
The vector indexing panics when `lit.var` is out of range; that case is
`none` here. -/
def Assignment.get (a : Assignment) (l : Literal) : Option Bool :=
  (a.assignment[l.var]?).map fun r => Bool.xor l.negated (!r.negated)

/-! ## The DIMACS encoder (`Dimacs::write_instance`) -/

/-- The character for the decimal digit `d` (for `d ≤ 9`). -/
def digitC (d : Nat) : Char := Char.ofNat (48 + d)

/-- Decimal digits of `n`, most significant first; `fuel` bounds the
recursion (any `fuel > n` is enough, see `natChars`). -/
def toDigitsCore : Nat → Nat → List Char
  | 0, _ => []
  | fuel + 1, n =>
    if n < 10 then [digitC n] else toDigitsCore fuel (n / 10) ++ [digitC (n % 10)]

/-- Decimal rendering of a natural number — Rust's `{}` for `usize`. -/
def natChars (n : Nat) : List Char := toDigitsCore (n + 1) n

/-- Decimal rendering of an integer — Rust's `{}` for `isize`. -/
def intChars (i : Int) : List Char :=
  if i < 0 then '-' :: natChars (-i).toNat else natChars i.toNat

/-- One literal as `write_instance` emits it:
`write!(writer, "{} ", if l.negated { -n } else { n })` with `n = var + 1`. -/
def litChars (l : Literal) : List Char :=
  intChars (if l.negated then -((l.var : Int) + 1) else (l.var : Int) + 1) ++ [' ']

/-- One clause line: every literal, then the `0` terminator and a newline. -/
def clauseChars (c : List Literal) : List Char :=
  (c.map litChars).flatten ++ ['0', '\n']

/-- `Dimacs::write_instance`: the header
`p cnf <num_vars> <num_clauses>\n` followed by one line per clause. -/
def write_instance (inst : Instance) : List Char :=
  "p cnf ".data ++ natChars inst.num_vars ++ ' ' :: natChars inst.cnf_clauses.length
    ++ '\n' :: (inst.cnf_clauses.map clauseChars).flatten

/-! ## The DIMACS decoder (`Dimacs::read_solution`) -/

/-- ASCII whitespace, as relevant for solver output (`str::split_whitespace`). -/
def isWs (c : Char) : Bool := c = ' ' || c = '\t' || c = '\n' || c = '\r'

/-- Helper for `splitWs`: `cur` holds the (reversed) current token. -/
def splitWsAux : List Char → List Char → List (List Char)
  | cur, [] => if cur.isEmpty then [] else [cur.reverse]
  | cur, c :: cs =>
    if isWs c then
      (if cur.isEmpty then splitWsAux [] cs else cur.reverse :: splitWsAux [] cs)
    else splitWsAux (c :: cur) cs

/-- `str::split_whitespace`: maximal runs of non-whitespace characters. -/
def splitWs (s : List Char) : List (List Char) := splitWsAux [] s

/-- Split a stream into the lines successive `read_line` calls return:
each line keeps its terminating `'\n'`; a final unterminated chunk is a
line of its own; the empty stream gives no lines (read size 0 = EOF). -/
def linesOf : List Char → List (List Char)
  | [] => []
  | c :: cs =>
    if c = '\n' then ['\n'] :: linesOf cs
    else
      match linesOf cs with
      | [] => [[c]]
      | l :: ls => (c :: l) :: ls

/-- Value of an ASCII decimal digit. -/
def digitVal (c : Char) : Option Nat :=
  if '0' ≤ c ∧ c ≤ '9' then some (c.toNat - 48) else none

/-- Accumulate decimal digits; any non-digit character fails the parse. -/
def parseDigitsAux : Nat → List Char → Option Nat
  | acc, [] => some acc
  | acc, c :: cs =>
    match digitVal c with
    | some d => parseDigitsAux (acc * 10 + d) cs
    | none => none

/-- A non-empty all-digit token as a natural number. -/
def parseNat (s : List Char) : Option Nat :=
  match s with
  | [] => none
  | _ :: _ => parseDigitsAux 0 s

/-- Optional sign, then a non-empty digit string. -/
def parseSigned : List Char → Option Int
  | '-' :: rest => (parseNat rest).map fun n => -(n : Int)
  | '+' :: rest => (parseNat rest).map fun n => (n : Int)
  | s => (parseNat s).map fun n => (n : Int)

/-- `isize::from_str` (64-bit): signed decimal parse, failing on overflow. -/
def parseIsize (s : List Char) : Option Int :=
  (parseSigned s).bind fun i =>
    if -(2 ^ 63 : Int) ≤ i ∧ i ≤ 2 ^ 63 - 1 then some i else none

/-- The initial assignment vector of `read_solution`:
`(0..num_vars).map(|i| Literal { var: i, negated: false })`. -/
def initAssign (num_vars : Nat) : List Literal :=
  (List.range num_vars).map fun i => { var := i, negated := false }

/-- The token loop body of `read_solution`: parse each token as `isize`
(`unwrap` panic = error), skip `0`, and for a negative token `i` set
`assignment[(-i - 1) as usize].negated = true` (index panic = error). -/
def procToks : List (List Char) → List Literal → Except String (List Literal)
  | [], a => .ok a
  | t :: ts, a =>
    match parseIsize t with
    | none => .error "token did not parse as isize"
    | some i =>
      if i = 0 then procToks ts a
      else if i < 0 then
        match a[(-i - 1).toNat]? with
        | some l => procToks ts (a.set (-i - 1).toNat { var := l.var, negated := true })
        | none => .error "index out of bounds"
      else procToks ts a

/-- The line loop of `read_solution`: split each line on whitespace and
process its tokens; end of input breaks the loop. -/
def procLines : List (List Char) → List Literal → Except String (List Literal)
  | [], a => .ok a
  | l :: ls, a =>
    match procToks (splitWs l) a with
    | .ok a2 => procLines ls a2
    | .error e => .error e

/-- `Dimacs::read_solution`: read the first line; `"UNSAT\n"` yields
`none`, anything other than `"SAT\n"` fails the `assert!` (error); after
`"SAT\n"` the remaining lines update the default assignment. -/
def read_solution (input : List Char) (num_vars : Nat) :
    Except String (Option Assignment) :=
  let line := (linesOf input).headD []
  if line = "UNSAT\n".data then .ok none
  else if line = "SAT\n".data then
    match procLines (linesOf input).tail (initAssign num_vars) with
    | .ok a => .ok (some { assignment := a })
    | .error e => .error e
  else .error "expected SAT"

/-- A token that the spec's output grammar accepts for `num_vars`
variables: it parses as a (64-bit) signed integer whose absolute value is
at most `num_vars` (`0` is the clause terminator and always fine). -/
def tokOK (n : Nat) (t : List Char) : Bool :=
  match parseIsize t with
  | some i => decide (i.natAbs ≤ n)
  | none => false

/-- A token on which the decoder faults: it fails integer parsing, or it
is negative with absolute value exceeding the slot count. -/
def badTok (n : Nat) (t : List Char) : Bool :=
  match parseIsize t with
  | some i => decide (i < 0) && decide (n < i.natAbs)
  | none => true

/-! ## Re-parsing the emitted header (modelled from the spec's grammar,
for the round-trip half of the header claim) -/

/-- The first line of a stream: the characters before the first `'\n'`. -/
def takeLine : List Char → List Char
  | [] => []
  | c :: cs => if c = '\n' then [] else c :: takeLine cs

/-- Split on a separator character, keeping empty groups. -/
def splitChar (sep : Char) : List Char → List (List Char)
  | [] => [[]]
  | c :: cs =>
    if c = sep then [] :: splitChar sep cs
    else
      match splitChar sep cs with
      | [] => [[c]]
      | g :: gs => (c :: g) :: gs

/-- Modelled from the spec: re-parse the DIMACS header line
`p cnf <vars> <clauses>` of a stream, recovering the two counts. -/
def specParseHeader (s : List Char) : Option (Nat × Nat) :=
  match splitChar ' ' (takeLine s) with
  | [w0, w1, w2, w3] =>
    if w0 = ['p'] ∧ w1 = "cnf".data then
      match parseNat w2, parseNat w3 with
      | some x, some y => some (x, y)
      | _, _ => none
    else none
  | _ => none

/-- The instance of the end-to-end scenario: three fresh variables
`x, y, z` in order, then the clauses `{x, z}`, `{!x, !y, !z}`, `{y}`. -/
def exInstance : Instance :=
  let s0 := Instance.new
  let p1 := fresh_var s0
  let p2 := fresh_var p1.1
  let p3 := fresh_var p2.1
  let x := p1.2
  let y := p2.2
  let z := p3.2
  let s4 := assert_any p3.1 [x, z]
  let s5 := assert_any s4 [x.not, y.not, z.not]
  assert_any s5 [y]

/-! ## Helper lemmas -/

/-- The line decomposition loses no characters. -/
theorem flatten_linesOf (s : List Char) : (linesOf s).flatten = s := by
  induction s with
  | nil => rfl
  | cons c cs ih =>
    by_cases h : c = '\n'
    · subst h
      simp [linesOf, ih]
    · rw [linesOf, if_neg h]
      cases hcs : linesOf cs with
      | nil =>
        rw [hcs] at ih
        simp at ih
        simp [ih]
      | cons l ls =>
        rw [hcs] at ih
        simpa [List.flatten_cons] using ih

/-- A stream beginning with the six characters `UNSAT\n` has that prefix as
its first line. -/
theorem linesOf_unsat (rest : List Char) :
    linesOf ("UNSAT\n".data ++ rest) = "UNSAT\n".data :: linesOf rest := rfl

/-- A stream beginning with the four characters `SAT\n` has that prefix as
its first line. -/
theorem linesOf_sat (rest : List Char) :
    linesOf ("SAT\n".data ++ rest) = "SAT\n".data :: linesOf rest := rfl

theorem tokOK_some {n : Nat} {t : List Char} {i : Int}
    (hp : parseIsize t = some i) : tokOK n t = true ↔ i.natAbs ≤ n := by
  simp [tokOK, hp]

theorem tokOK_none {n : Nat} {t : List Char}
    (hp : parseIsize t = none) : tokOK n t = false := by
  simp [tokOK, hp]

theorem badTok_some {n : Nat} {t : List Char} {i : Int}
    (hp : parseIsize t = some i) : badTok n t = true ↔ i < 0 ∧ n < i.natAbs := by
  simp [badTok, hp]

theorem badTok_none {n : Nat} {t : List Char}
    (hp : parseIsize t = none) : badTok n t = true := by
  simp [badTok, hp]

/-- Invariant of the token loop: if every token parses and respects the
slot-count bound, the loop succeeds; it preserves the number of slots and
each slot's variable field, and a slot's `negated` flag ends up set
exactly when it was already set or some token is the negative 1-based
code of that slot. -/
theorem procToks_ok (ts : List (List Char)) :
    ∀ a : List Literal, (∀ t ∈ ts, tokOK a.length t = true) →
    ∃ a', procToks ts a = .ok a' ∧ a'.length = a.length ∧
      ∀ v, v < a.length →
        ∃ l l', a[v]? = some l ∧ a'[v]? = some l' ∧ l'.var = l.var ∧
          (l'.negated = true ↔
            (l.negated = true ∨
              ∃ t, t ∈ ts ∧ parseIsize t = some (-((v : Int) + 1)))) := by
  induction ts with
  | nil =>
    intro a _
    refine ⟨a, rfl, rfl, fun v hv => ?_⟩
    exact ⟨a[v], a[v], List.getElem?_eq_getElem hv, List.getElem?_eq_getElem hv,
      rfl, by simp⟩
  | cons t ts ih =>
    intro a hts
    have ht := hts t (List.mem_cons_self t ts)
    have htail : ∀ t' ∈ ts, tokOK a.length t' = true :=
      fun t' h' => hts t' (List.mem_cons_of_mem t h')
    cases hp : parseIsize t with
    | none => rw [tokOK_none hp] at ht; exact absurd ht (by simp)
    | some i =>
      have hle : i.natAbs ≤ a.length := (tokOK_some hp).mp ht
      by_cases h0 : i = 0
      · subst h0
        obtain ⟨a', he, hlen, hinv⟩ := ih a htail
        refine ⟨a', ?_, hlen, ?_⟩
        · simp only [procToks, hp, reduceIte]
          exact he
        · intro v hv
          obtain ⟨l, l', h1, h2, h3, h4⟩ := hinv v hv
          refine ⟨l, l', h1, h2, h3, ?_⟩
          rw [h4]
          constructor
          · rintro (hL | ⟨t', hmem, hpt⟩)
            · exact Or.inl hL
            · exact Or.inr ⟨t', List.mem_cons_of_mem t hmem, hpt⟩
          · rintro (hL | ⟨t', hmem, hpt⟩)
            · exact Or.inl hL
            · rcases List.mem_cons.mp hmem with rfl | hmem'
              · rw [hp] at hpt
                have hne : -((v : Int) + 1) ≠ 0 := by omega
                exact absurd (Option.some.inj hpt).symm hne
              · exact Or.inr ⟨t', hmem', hpt⟩
      · by_cases hneg : i < 0
        · have hidx : (-i - 1).toNat < a.length := by omega
          have hGet : a[(-i - 1).toNat]? = some a[(-i - 1).toNat] :=
            List.getElem?_eq_getElem hidx
          obtain ⟨a', he, hlen, hinv⟩ :=
            ih (a.set (-i - 1).toNat ⟨a[(-i - 1).toNat].var, true⟩)
              (by intro t' h'; simpa [List.length_set] using htail t' h')
          refine ⟨a', ?_, by rw [hlen, List.length_set], ?_⟩
          · simp only [procToks, hp, if_neg h0, if_pos hneg, hGet]
            exact he
          · intro v hv
            obtain ⟨m, m', hm1, hm2, hm3, hm4⟩ :=
              hinv v (by rw [List.length_set]; exact hv)
            by_cases hveq : v = (-i - 1).toNat
            · rw [hveq, List.getElem?_set_eq_of_lt _ hidx] at hm1
              have hmX := (Option.some.inj hm1).symm
              have hiv : i = -((v : Int) + 1) := by omega
              have hGetv : a[v]? = some a[(-i - 1).toNat] := by
                rw [hveq]; exact hGet
              refine ⟨a[(-i - 1).toNat], m', hGetv, hm2, ?_, ?_⟩
              · rw [hm3, hmX]
              · constructor
                · intro _
                  exact Or.inr ⟨t, List.mem_cons_self t ts, by rw [hp, hiv]⟩
                · intro _
                  exact hm4.mpr (Or.inl (by rw [hmX]))
            · rw [List.getElem?_set_ne (fun hh => hveq hh.symm)] at hm1
              refine ⟨m, m', hm1, hm2, hm3, ?_⟩
              rw [hm4]
              constructor
              · rintro (hL | ⟨t', hmem, hpt⟩)
                · exact Or.inl hL
                · exact Or.inr ⟨t', List.mem_cons_of_mem t hmem, hpt⟩
              · rintro (hL | ⟨t', hmem, hpt⟩)
                · exact Or.inl hL
                · rcases List.mem_cons.mp hmem with rfl | hmem'
                  · rw [hp] at hpt
                    have hiv : i = -((v : Int) + 1) := Option.some.inj hpt
                    exact absurd (by omega : v = (-i - 1).toNat) hveq
                  · exact Or.inr ⟨t', hmem', hpt⟩
        · obtain ⟨a', he, hlen, hinv⟩ := ih a htail
          refine ⟨a', ?_, hlen, ?_⟩
          · simp only [procToks, hp, if_neg h0, if_neg hneg]
            exact he
          · intro v hv
            obtain ⟨l, l', h1, h2, h3, h4⟩ := hinv v hv
            refine ⟨l, l', h1, h2, h3, ?_⟩
            rw [h4]
            constructor
            · rintro (hL | ⟨t', hmem, hpt⟩)
              · exact Or.inl hL
              · exact Or.inr ⟨t', List.mem_cons_of_mem t hmem, hpt⟩
            · rintro (hL | ⟨t', hmem, hpt⟩)
              · exact Or.inl hL
              · rcases List.mem_cons.mp hmem with rfl | hmem'
                · rw [hp] at hpt
                  have hiv : i = -((v : Int) + 1) := Option.some.inj hpt
                  exact absurd hiv (by omega)
                · exact Or.inr ⟨t', hmem', hpt⟩

/-- If some token of the stream fails to parse, or is negative with
absolute value above the slot count, the token loop faults. -/
theorem procToks_error (ts : List (List Char)) :
    ∀ a : List Literal, (∃ t, t ∈ ts ∧ badTok a.length t = true) →
    ∃ e, procToks ts a = .error e := by
  induction ts with
  | nil =>
    rintro a ⟨t, hmem, _⟩
    exact absurd hmem (List.not_mem_nil t)
  | cons t ts ih =>
    rintro a ⟨t0, hmem, hbad⟩
    cases hp : parseIsize t with
    | none => exact ⟨"token did not parse as isize", by simp [procToks, hp]⟩
    | some i =>
      by_cases h0 : i = 0
      · subst h0
        rcases List.mem_cons.mp hmem with rfl | hmem'
        · rw [badTok_some hp] at hbad
          exact absurd hbad.1 (lt_irrefl 0)
        · obtain ⟨e, he⟩ := ih a ⟨t0, hmem', hbad⟩
          refine ⟨e, ?_⟩
          simp only [procToks, hp, reduceIte]
          exact he
      · by_cases hneg : i < 0
        · by_cases hin : i.natAbs ≤ a.length
          · have hidx : (-i - 1).toNat < a.length := by omega
            have hGet : a[(-i - 1).toNat]? = some a[(-i - 1).toNat] :=
              List.getElem?_eq_getElem hidx
            rcases List.mem_cons.mp hmem with rfl | hmem'
            · rw [badTok_some hp] at hbad
              exact absurd hbad.2 (by omega)
            · obtain ⟨e, he⟩ :=
                ih (a.set (-i - 1).toNat ⟨a[(-i - 1).toNat].var, true⟩)
                  ⟨t0, hmem', by simpa [List.length_set] using hbad⟩
              refine ⟨e, ?_⟩
              simp only [procToks, hp, if_neg h0, if_pos hneg, hGet]
              exact he
          · have hnone : a[(-i - 1).toNat]? = none :=
              List.getElem?_eq_none (by omega)
            exact ⟨"index out of bounds",
              by simp only [procToks, hp, if_neg h0, if_pos hneg, hnone]⟩
        · rcases List.mem_cons.mp hmem with rfl | hmem'
          · rw [badTok_some hp] at hbad
            exact absurd hbad.1 hneg
          · obtain ⟨e, he⟩ := ih a ⟨t0, hmem', hbad⟩
            refine ⟨e, ?_⟩
            simp only [procToks, hp, if_neg h0, if_neg hneg]
            exact he

theorem procToks_append (xs ys : List (List Char)) :
    ∀ a, procToks (xs ++ ys) a =
      match procToks xs a with
      | .ok a' => procToks ys a'
      | .error e => .error e := by
  induction xs with
  | nil => intro a; rfl
  | cons t xs ih =>
    intro a
    cases hp : parseIsize t with
    | none => simp [procToks, hp]
    | some i =>
      by_cases h0 : i = 0
      · subst h0
        simp only [List.cons_append, procToks, hp, reduceIte]
        exact ih a
      · by_cases hneg : i < 0
        · cases hGet : a[(-i - 1).toNat]? with
          | none => simp only [List.cons_append, procToks, hp, if_neg h0, if_pos hneg, hGet]
          | some l =>
            simp only [List.cons_append, procToks, hp, if_neg h0, if_pos hneg, hGet]
            exact ih _
        · simp only [List.cons_append, procToks, hp, if_neg h0, if_neg hneg]
          exact ih a

/-- The per-line loop is the token loop on the concatenation of every
line's whitespace-separated tokens, in order. -/
theorem procLines_eq (ls : List (List Char)) :
    ∀ a, procLines ls a = procToks ((ls.map splitWs).flatten) a := by
  induction ls with
  | nil => intro a; rfl
  | cons l ls ih =>
    intro a
    rw [List.map_cons, List.flatten_cons, procToks_append]
    simp only [procLines]
    cases hp : procToks (splitWs l) a with
    | ok a2 => exact ih a2
    | error e => rfl

/-! ## Claims -/

/-- C9: negating a literal twice (the `!` operator of `impl ops::Not for
Literal`) yields a literal equal to the original in both variable index
and polarity. -/
theorem negation_involution (l : Literal) :
    l.not.not.var = l.var ∧ l.not.not.negated = l.negated := by
  simp [Literal.not]

/-- C2: for a literal whose variable index is below the number of recorded
slots, `Assignment::get` returns `lit.negated XOR (NOT recorded.negated)`
where `recorded` is the slot for the literal's variable. -/
theorem assignment_get_spec (a : Assignment) (l : Literal) (r : Literal)
    (h : a.assignment[l.var]? = some r) :
    a.get l = some (Bool.xor l.negated (!r.negated)) := by
  simp [Assignment.get, h]

theorem assignment_get_spec_witness :
    ((⟨[⟨0, true⟩]⟩ : Assignment).assignment[(⟨0, false⟩ : Literal).var]? =
      some ⟨0, true⟩) ∧
    (⟨[⟨0, true⟩]⟩ : Assignment).get ⟨0, false⟩ =
      some (Bool.xor false (!true)) :=
  ⟨by decide, assignment_get_spec ⟨[⟨0, true⟩]⟩ ⟨0, false⟩ ⟨0, true⟩ (by decide)⟩

/-- C3 counterexample: the assignment decoded from `SAT\n` (one variable,
no tokens) violates the claimed law `get l = l.negated XOR !get (non_negated l)`
at the non-negated literal for variable 0: both sides are defined and the
left is `true` while the right is `false`. -/
theorem polarity_law_claim_cex :
    read_solution "SAT\n".data 1 = .ok (some ⟨[⟨0, false⟩]⟩) ∧
    (⟨[⟨0, false⟩]⟩ : Assignment).get ⟨0, false⟩ ≠
      ((⟨[⟨0, false⟩]⟩ : Assignment).get ⟨0, false⟩).map
        (fun b => Bool.xor (⟨0, false⟩ : Literal).negated (!b)) :=
  ⟨rfl, by decide⟩

/-- C3 amended: for every assignment and literal with in-range variable
index, `get l = l.negated XOR get (non_negated l)` (without the extra
negation the claim states). -/
theorem polarity_law_amended (a : Assignment) (l : Literal)
    (h : l.var < a.assignment.length) :
    a.get l = (a.get ⟨l.var, false⟩).map fun b => Bool.xor l.negated b := by
  simp [Assignment.get, List.getElem?_eq_getElem h]

theorem polarity_law_amended_witness :
    ((⟨0, true⟩ : Literal).var < (⟨[⟨0, true⟩]⟩ : Assignment).assignment.length) ∧
    (⟨[⟨0, true⟩]⟩ : Assignment).get ⟨0, true⟩ =
      ((⟨[⟨0, true⟩]⟩ : Assignment).get ⟨(⟨0, true⟩ : Literal).var, false⟩).map
        fun b => Bool.xor (⟨0, true⟩ : Literal).negated b :=
  ⟨by decide, polarity_law_amended ⟨[⟨0, true⟩]⟩ ⟨0, true⟩ (by decide)⟩

/-- C7: the encoder emits exactly the expected DIMACS bytes for the
three-variable, three-clause scenario instance. -/
theorem end_to_end_encoding :
    write_instance exInstance = "p cnf 3 3\n1 3 0\n-1 -2 -3 0\n2 0\n".data := by
  decide

/-- C10: asserting an empty clause appends exactly one empty clause, keeps
`num_vars` and all earlier clauses, and the encoder emits the new clause
as a line holding only the terminator `0` while counting it in the
header. -/
theorem assert_any_empty_clause (inst : Instance) :
    (assert_any inst []).num_vars = inst.num_vars ∧
    (assert_any inst []).cnf_clauses = inst.cnf_clauses ++ [[]] ∧
    (assert_any inst []).cnf_clauses.length = inst.cnf_clauses.length + 1 ∧
    write_instance (assert_any inst []) =
      "p cnf ".data ++ natChars inst.num_vars
        ++ ' ' :: natChars (inst.cnf_clauses.length + 1)
        ++ '\n' :: ((inst.cnf_clauses.map clauseChars).flatten ++ ['0', '\n']) := by
  refine ⟨rfl, rfl, by simp [assert_any], ?_⟩
  simp [write_instance, assert_any, clauseChars]

/-- C4 counterexample: a stream of one empty line followed by `SAT\n` is a
decode fault — empty lines before the header are not skipped. -/
theorem header_skip_empty_cex :
    read_solution ('\n' :: "SAT\n".data) 1 = .error "expected SAT" := rfl

/-- C4 amended: the decoder inspects only the very first line of the
stream; unless it is exactly `SAT\n` or `UNSAT\n` (case-sensitive,
trailing newline required, leading empty lines not skipped), decoding is
a fault. -/
theorem header_fault_amended (num_vars : Nat) (input : List Char)
    (h1 : (linesOf input).headD [] ≠ "UNSAT\n".data)
    (h2 : (linesOf input).headD [] ≠ "SAT\n".data) :
    read_solution input num_vars = .error "expected SAT" := by
  cases h : linesOf input with
  | nil => simp [read_solution, h]
  | cons line rest =>
    rw [h] at h1 h2
    simp only [List.headD_cons] at h1 h2
    simp [read_solution, h, h1, h2]

theorem header_fault_amended_witness :
    ((linesOf "FOO\n".data).headD [] ≠ "UNSAT\n".data) ∧
    ((linesOf "FOO\n".data).headD [] ≠ "SAT\n".data) ∧
    read_solution "FOO\n".data 3 = .error "expected SAT" :=
  ⟨by decide, by decide, header_fault_amended 3 "FOO\n".data (by decide) (by decide)⟩

theorem digitC_facts (d : Nat) (h : d < 10) :
    digitVal (digitC d) = some d ∧ digitC d ≠ '\n' ∧ digitC d ≠ ' ' := by
  interval_cases d <;> exact ⟨by decide, by decide, by decide⟩

theorem toDigitsCore_digits :
    ∀ fuel n : Nat, ∀ c ∈ toDigitsCore fuel n, ∃ d, d < 10 ∧ c = digitC d := by
  intro fuel
  induction fuel with
  | zero =>
    intro n c hc
    simp only [toDigitsCore] at hc
    exact absurd hc (List.not_mem_nil c)
  | succ fuel ih =>
    intro n c hc
    simp only [toDigitsCore] at hc
    by_cases h : n < 10
    · rw [if_pos h] at hc
      simp only [List.mem_singleton] at hc
      exact ⟨n, h, hc⟩
    · rw [if_neg h] at hc
      rcases List.mem_append.mp hc with h1 | h2
      · exact ih (n / 10) c h1
      · simp only [List.mem_singleton] at h2
        exact ⟨n % 10, Nat.mod_lt n (by omega), h2⟩

theorem toDigitsCore_succ_ne_nil (fuel n : Nat) : toDigitsCore (fuel + 1) n ≠ [] := by
  simp only [toDigitsCore]
  by_cases h : n < 10
  · simp [h]
  · simp [h]

theorem parseDigitsAux_append (xs ys : List Char) :
    ∀ acc, parseDigitsAux acc (xs ++ ys) =
      match parseDigitsAux acc xs with
      | some a => parseDigitsAux a ys
      | none => none := by
  induction xs with
  | nil => intro acc; rfl
  | cons c cs ih =>
    intro acc
    cases hd : digitVal c with
    | none => simp [parseDigitsAux, hd]
    | some d =>
      simp only [List.cons_append, parseDigitsAux, hd]
      exact ih _

theorem parseDigitsAux_toDigitsCore :
    ∀ fuel n acc : Nat, n < 10 ^ fuel →
      parseDigitsAux acc (toDigitsCore fuel n) =
        some (acc * 10 ^ (toDigitsCore fuel n).length + n) := by
  intro fuel
  induction fuel with
  | zero =>
    intro n acc h
    interval_cases n
    simp [toDigitsCore, parseDigitsAux]
  | succ fuel ih =>
    intro n acc h
    by_cases hn : n < 10
    · simp only [toDigitsCore, if_pos hn]
      have hd := (digitC_facts n hn).1
      simp [parseDigitsAux, hd]
    · simp only [toDigitsCore, if_neg hn]
      rw [parseDigitsAux_append]
      have hdiv : n / 10 < 10 ^ fuel := by
        have hps : (10 : Nat) ^ (fuel + 1) = 10 ^ fuel * 10 := pow_succ 10 fuel
        omega
      rw [ih (n / 10) acc hdiv]
      have hd := (digitC_facts (n % 10) (Nat.mod_lt n (by omega))).1
      simp only [parseDigitsAux, hd]
      rw [List.length_append, List.length_singleton]
      congr 1
      calc (acc * 10 ^ (toDigitsCore fuel (n / 10)).length + n / 10) * 10 + n % 10
          = acc * (10 ^ (toDigitsCore fuel (n / 10)).length * 10)
              + (10 * (n / 10) + n % 10) := by ring
        _ = acc * 10 ^ ((toDigitsCore fuel (n / 10)).length + 1) + n := by
            rw [Nat.div_add_mod, pow_succ]

theorem parseNat_natChars (n : Nat) : parseNat (natChars n) = some n := by
  have hbound : n < 10 ^ (n + 1) :=
    lt_of_lt_of_le (Nat.lt_pow_self (by norm_num) n)
      (Nat.pow_le_pow_right (by norm_num) (Nat.le_succ n))
  have h := parseDigitsAux_toDigitsCore (n + 1) n 0 hbound
  rw [natChars]
  cases hT : toDigitsCore (n + 1) n with
  | nil => exact absurd hT (toDigitsCore_succ_ne_nil n n)
  | cons c cs =>
    rw [hT] at h
    simpa [parseNat] using h

theorem natChars_no_nl (n : Nat) : '\n' ∉ natChars n := by
  intro h
  obtain ⟨d, hd, hc⟩ := toDigitsCore_digits (n + 1) n '\n' h
  exact (digitC_facts d hd).2.1 hc.symm

theorem natChars_no_sp (n : Nat) : ' ' ∉ natChars n := by
  intro h
  obtain ⟨d, hd, hc⟩ := toDigitsCore_digits (n + 1) n ' ' h
  exact (digitC_facts d hd).2.2 hc.symm

theorem takeLine_append (xs ys : List Char) (h : '\n' ∉ xs) :
    takeLine (xs ++ '\n' :: ys) = xs := by
  induction xs with
  | nil => simp [takeLine]
  | cons c cs ih =>
    have hc : ¬(c = '\n') := fun hh => h (hh ▸ List.mem_cons_self c cs)
    simp only [List.cons_append, takeLine, if_neg hc, List.append_eq]
    rw [ih (fun hh => h (List.mem_cons_of_mem c hh))]

theorem splitChar_no_sep (sep : Char) (xs : List Char) (h : sep ∉ xs) :
    splitChar sep xs = [xs] := by
  induction xs with
  | nil => rfl
  | cons c cs ih =>
    have hc : ¬(c = sep) := fun hh => h (hh ▸ List.mem_cons_self c cs)
    rw [splitChar, if_neg hc, ih (fun hh => h (List.mem_cons_of_mem c hh))]

theorem splitChar_cons_sep (sep : Char) (xs ys : List Char) (h : sep ∉ xs) :
    splitChar sep (xs ++ sep :: ys) = xs :: splitChar sep ys := by
  induction xs with
  | nil => simp [splitChar]
  | cons c cs ih =>
    have hc : ¬(c = sep) := fun hh => h (hh ▸ List.mem_cons_self c cs)
    simp only [List.cons_append, splitChar, if_neg hc, List.append_eq]
    rw [ih (fun hh => h (List.mem_cons_of_mem c hh))]

theorem write_instance_eq (inst : Instance) :
    write_instance inst =
      ("p cnf ".data ++ natChars inst.num_vars
        ++ ' ' :: natChars inst.cnf_clauses.length)
        ++ '\n' :: (inst.cnf_clauses.map clauseChars).flatten := by
  simp [write_instance, List.append_assoc]

theorem header_no_nl (n m : Nat) :
    '\n' ∉ ("p cnf ".data ++ natChars n ++ ' ' :: natChars m) := by
  intro hmem
  rcases List.mem_append.mp hmem with h1 | h2
  · rcases List.mem_append.mp h1 with h3 | h4
    · exact absurd h3 (by decide)
    · exact natChars_no_nl n h4
  · rcases List.mem_cons.mp h2 with h5 | h6
    · exact absurd h5 (by decide)
    · exact natChars_no_nl m h6

theorem splitChar_header (n m : Nat) :
    splitChar ' ' ("p cnf ".data ++ natChars n ++ ' ' :: natChars m) =
      [['p'], "cnf".data, natChars n, natChars m] := by
  have e1 : "p cnf ".data ++ natChars n ++ ' ' :: natChars m =
      ['p'] ++ ' ' :: ("cnf".data ++ ' ' :: (natChars n ++ ' ' :: natChars m)) := by
    simp [List.append_assoc]
  rw [e1, splitChar_cons_sep _ _ _ (by decide),
    splitChar_cons_sep _ _ _ (by decide),
    splitChar_cons_sep _ _ _ (natChars_no_sp n),
    splitChar_no_sep _ _ (natChars_no_sp m)]

/-- C8: the first line the encoder emits is `p cnf <n> <m>` with `n` the
instance's `num_vars` and `m` its clause count (in decimal), and
re-parsing the emitted header recovers exactly those two counts. -/
theorem header_roundtrip (inst : Instance) :
    takeLine (write_instance inst) =
      "p cnf ".data ++ natChars inst.num_vars
        ++ ' ' :: natChars inst.cnf_clauses.length ∧
    specParseHeader (write_instance inst) =
      some (inst.num_vars, inst.cnf_clauses.length) := by
  have hTL : takeLine (write_instance inst) =
      "p cnf ".data ++ natChars inst.num_vars
        ++ ' ' :: natChars inst.cnf_clauses.length := by
    rw [write_instance_eq, takeLine_append _ _ (header_no_nl _ _)]
  refine ⟨hTL, ?_⟩
  rw [specParseHeader, hTL, splitChar_header]
  simp [parseNat_natChars]

/-- C6: a stream whose first line is exactly `UNSAT\n` decodes to `none`
whatever follows, and `none` arises only from such a stream. -/
theorem unsat_yields_none (num_vars : Nat) (input : List Char) :
    (∀ rest, input = "UNSAT\n".data ++ rest →
      read_solution input num_vars = .ok none) ∧
    (read_solution input num_vars = .ok none →
      ∃ rest, input = "UNSAT\n".data ++ rest) := by
  constructor
  · rintro rest rfl
    rfl
  · intro h
    simp only [read_solution] at h
    by_cases hu : (linesOf input).headD [] = "UNSAT\n".data
    · cases hl : linesOf input with
      | nil => rw [hl] at hu; exact absurd hu (by decide)
      | cons line rest =>
        rw [hl] at hu
        simp only [List.headD_cons] at hu
        refine ⟨rest.flatten, ?_⟩
        have hf := flatten_linesOf input
        rw [hl, List.flatten_cons, hu] at hf
        exact hf.symm
    · rw [if_neg hu] at h
      by_cases hs : (linesOf input).headD [] = "SAT\n".data
      · rw [if_pos hs] at h
        cases hp : procLines (linesOf input).tail (initAssign num_vars) with
        | ok a => rw [hp] at h; exact absurd h (by simp)
        | error e => rw [hp] at h; exact absurd h (by simp)
      · rw [if_neg hs] at h
        exact absurd h (by simp)

/-- C1: decoding a well-formed `SAT` output stream (header line exactly
`SAT\n`, every whitespace-separated token of the remaining lines a signed
integer within the range the grammar admits for `num_vars` variables)
yields an assignment with exactly `num_vars` slots in which slot `v` is
negated exactly when some token equals `-(v+1)`; a variable no token
mentions keeps the non-negated default, so `get` of its non-negated
literal is `true`. -/
theorem read_solution_sat_decodes (num_vars : Nat) (input : List Char)
    (rest : List (List Char))
    (h1 : linesOf input = "SAT\n".data :: rest)
    (h2 : ((rest.map splitWs).flatten).all (tokOK num_vars) = true) :
    ∃ a : Assignment, read_solution input num_vars = .ok (some a) ∧
      a.assignment.length = num_vars ∧
      ∀ v, v < num_vars →
        ∃ l, a.assignment[v]? = some l ∧ l.var = v ∧
          (l.negated = true ↔
            ∃ t, t ∈ (rest.map splitWs).flatten ∧
              parseIsize t = some (-((v : Int) + 1))) ∧
          (l.negated = false → a.get ⟨v, false⟩ = some true) := by
  have hlen : (initAssign num_vars).length = num_vars := by
    simp [initAssign]
  obtain ⟨a', he, hlen', hinv⟩ :=
    procToks_ok ((rest.map splitWs).flatten) (initAssign num_vars)
      (by
        intro t hmem
        rw [hlen]
        exact (List.all_eq_true.mp h2) t hmem)
  refine ⟨⟨a'⟩, ?_, by rw [hlen', hlen], ?_⟩
  · rw [read_solution, h1]
    simp only [List.headD_cons, List.tail_cons]
    rw [if_neg (by decide), if_pos (by decide), procLines_eq, he]
  · intro v hv
    obtain ⟨l, l', hl, hl', hvar, hiff⟩ := hinv v (by rw [hlen]; exact hv)
    have hinit : (initAssign num_vars)[v]? = some ⟨v, false⟩ := by
      simp [initAssign, List.getElem?_range, hv]
    rw [hinit] at hl
    have hlv := (Option.some.inj hl).symm
    subst hlv
    refine ⟨l', hl', hvar, ?_, ?_⟩
    · rw [hiff]
      simp
    · intro hfalse
      simp [Assignment.get, hl', hfalse]

theorem read_solution_sat_decodes_witness :
    (linesOf "SAT\n-1 0\n".data = "SAT\n".data :: ["-1 0\n".data] ∧
      ((["-1 0\n".data].map splitWs).flatten).all (tokOK 2) = true) ∧
    (∃ a : Assignment, read_solution "SAT\n-1 0\n".data 2 = .ok (some a) ∧
      a.assignment.length = 2 ∧
      ∀ v : Nat, v < 2 →
        ∃ l, a.assignment[v]? = some l ∧ l.var = v ∧
          (l.negated = true ↔
            ∃ t, t ∈ (["-1 0\n".data].map splitWs).flatten ∧
              parseIsize t = some (-((v : Int) + 1))) ∧
          (l.negated = false → a.get ⟨v, false⟩ = some true)) :=
  ⟨⟨by decide, by decide⟩,
    read_solution_sat_decodes 2 "SAT\n-1 0\n".data ["-1 0\n".data]
      (by decide) (by decide)⟩

/-- C5 counterexample: with one variable, the `SAT` stream whose only
nonzero token is the out-of-range positive integer `2` does NOT fault —
the decoder silently ignores positive out-of-range tokens and returns an
assignment. -/
theorem positive_out_of_range_cex :
    read_solution "SAT\n2 0\n".data 1 = .ok (some ⟨[⟨0, false⟩]⟩) := rfl

/-- C5 amended: after a `SAT\n` header, the decoder faults if some token
fails signed-integer parsing, or is a *negative* token whose absolute
value lies outside `[1, num_vars]`; positive out-of-range tokens are
silently ignored. -/
theorem decode_fault_amended (num_vars : Nat) (input : List Char)
    (rest : List (List Char))
    (h1 : linesOf input = "SAT\n".data :: rest)
    (h2 : ((rest.map splitWs).flatten).any (badTok num_vars) = true) :
    ∃ e, read_solution input num_vars = .error e := by
  obtain ⟨t, hmem, hbad⟩ := List.any_eq_true.mp h2
  have hlen : (initAssign num_vars).length = num_vars := by
    simp [initAssign]
  obtain ⟨e, he⟩ :=
    procToks_error ((rest.map splitWs).flatten) (initAssign num_vars)
      ⟨t, hmem, by rw [hlen]; exact hbad⟩
  refine ⟨e, ?_⟩
  rw [read_solution, h1]
  simp only [List.headD_cons, List.tail_cons]
  rw [if_neg (by decide), if_pos (by decide), procLines_eq, he]

theorem decode_fault_amended_witness :
    (linesOf "SAT\nx1 0\n".data = "SAT\n".data :: ["x1 0\n".data] ∧
      ((["x1 0\n".data].map splitWs).flatten).any (badTok 1) = true) ∧
    (∃ e, read_solution "SAT\nx1 0\n".data 1 = .error e) :=
  ⟨⟨by decide, by decide⟩,
    decode_fault_amended 1 "SAT\nx1 0\n".data ["x1 0\n".data]
      (by decide) (by decide)⟩

theorem unsat_yields_none_witness :
    read_solution ("UNSAT\n".data ++ "trailing garbage\n-7\n".data) 4 = .ok none :=
  (unsat_yields_none 4 ("UNSAT\n".data ++ "trailing garbage\n-7\n".data)).1
    "trailing garbage\n-7\n".data rfl

end SatLib
